import Mathlib

/-!
Shallow embedding of the BongoDB storage engine core (bongo-core and
bongo-server crates) and verification of its specification claims.

Modelling conventions:
* Rust `u8` bytes are `Nat` (values < 256 where produced by the code).
* Rust `String` is modelled by its UTF-8 byte sequence (`List Nat`); the
  type invariant of `String` (the bytes are valid UTF-8) is the
  executable predicate `validUtf8`.  `String::from_utf8` is modelled as
  the validity check returning the bytes.
* Rust `i64` is `Int`; the `i64` range invariant is stated explicitly
  where a theorem needs it.
* `Vec<T>` is `List T` in the same element order (so `Vec::pop` takes the
  last element).  `HashMap<K, V>` is an association list `List (K × V)`
  whose well-formedness (distinct keys) is a hypothesis where needed.
* Fallible Rust code returns `Except`; a Rust panic is modelled by the
  distinguished error constructor `ExecErr.crash`.
* Buffers whose content the source leaves uninitialised (`Vec::set_len`
  after `with_capacity`) are filled from an arbitrary `pad` function over
  which the round-trip theorems quantify; executable runs use `pad0`.
-/

/-- Error type of the engine, from `bongo-core/src/types.rs` (`BongoError`).
Message payloads are carried verbatim where they are static; dynamic
`format!` interpolations of debug representations are abbreviated to their
static skeleton, which no theorem depends on. -/
inductive BongoError where
  | SqlSyntaxError (msg : String)
  | SqlRuntimeError (msg : String)
  | EmptySqlStatementError
  | UnsupportedFeatureError (msg : String)
  | InternalError (msg : String)
  | WebServerError (msg : String)
  | DatabaseNotFoundError (msg : String)
  | ReadFileError (msg : String)
  | WriteFileError (msg : String)
  | DeserializerError
  | InvalidArgumentError (msg : String)
deriving DecidableEq

/-- Result of running modelled engine code: either a returned `BongoError`
value (`err`) or a Rust panic (`crash`). -/
inductive ExecErr where
  | err (e : BongoError)
  | crash (msg : String)
deriving DecidableEq

deriving instance DecidableEq for Except

/-- Literals supported by BongoDB, from `bongo-core/src/types.rs`
(`BongoLiteral`).  `Varchar` holds the UTF-8 bytes of the Rust string. -/
inductive BongoLiteral where
  | Int (n : Int)
  | Bool (b : Bool)
  | Varchar (s : List Nat)
  | Null
deriving DecidableEq

/-- Data types supported by BongoDB, from `bongo-core/src/types.rs`
(`BongoDataType`). -/
inductive BongoDataType where
  | Int
  | Bool
  | Varchar (cap : Nat)
deriving DecidableEq

/-- Column definition, from `bongo-core/src/types.rs` (`ColumnDef`). -/
structure ColumnDef where
  name : String
  data_type : BongoDataType
deriving DecidableEq

/-- A row is a list of literals (`pub type Row = Vec<BongoLiteral>`). -/
abbrev Row := List BongoLiteral

/-- Names of all contained columns (`GetColNamesExt::get_col_names`). -/
def get_col_names (cols : List ColumnDef) : List String :=
  cols.map (fun c => c.name)

/-- Data types of all contained columns (`GetDTypesExt::get_d_types`). -/
def get_d_types (cols : List ColumnDef) : List BongoDataType :=
  cols.map (fun c => c.data_type)

/-- Whether one UTF-8 continuation byte is in range 0x80-0xBF. -/
def isUtf8Cont (b : Nat) : Bool :=
  0x80 ≤ b && b ≤ 0xBF

/-- Number of continuation bytes a UTF-8 lead byte announces: 0 for
ASCII, 1 for 0xC2-0xDF, 2 for 0xE0-0xEF, 3 for 0xF0-0xF4, and the
sentinel 9 for every byte that is not a valid lead (0x80-0xC1 covers the
continuation range and the overlong leads 0xC0/0xC1; 0xF5-0xFF are out of
Unicode range). -/
def utf8Need (b : Nat) : Nat :=
  if b ≤ 0x7F then 0
  else if 0xC2 ≤ b && b ≤ 0xDF then 1
  else if 0xE0 ≤ b && b ≤ 0xEF then 2
  else if 0xF0 ≤ b && b ≤ 0xF4 then 3
  else 9

/-- Constraint on the first continuation byte given the lead byte: the
narrowed ranges exclude overlong encodings (0xE0, 0xF0), surrogates
(0xED) and code points past U+10FFFF (0xF4). -/
def utf8Cont1Ok (b c1 : Nat) : Bool :=
  if b = 0xE0 then 0xA0 ≤ c1 && c1 ≤ 0xBF
  else if b = 0xED then 0x80 ≤ c1 && c1 ≤ 0x9F
  else if b = 0xF0 then 0x90 ≤ c1 && c1 ≤ 0xBF
  else if b = 0xF4 then 0x80 ≤ c1 && c1 ≤ 0x8F
  else isUtf8Cont c1

/-- Executable UTF-8 validity of a byte sequence, the type invariant of a
Rust `String` (and the success condition of `String::from_utf8`). -/
def validUtf8 : List Nat → Bool
  | [] => true
  | b :: rest =>
    match utf8Need b, rest with
    | 0, r => validUtf8 r
    | 1, c1 :: r => utf8Cont1Ok b c1 && validUtf8 r
    | 2, c1 :: c2 :: r => utf8Cont1Ok b c1 && isUtf8Cont c2 && validUtf8 r
    | 3, c1 :: c2 :: c3 :: r =>
      utf8Cont1Ok b c1 && isUtf8Cont c2 && isUtf8Cont c3 && validUtf8 r
    | _, _ => false

/-- Whether a literal can be stored in a data type
(`BongoDataType::can_store`); for `Varchar` the Rust `String::len` is the
byte length. -/
def BongoDataType.can_store (t : BongoDataType) (lit : BongoLiteral) :=
  match lit, t with
  | .Int _, .Int => true
  | .Int _, _ => false
  | .Bool _, .Bool => true
  | .Bool _, _ => false
  | .Varchar s, .Varchar cap => decide (s.length ≤ cap)
  | .Varchar _, _ => false
  | .Null, _ => true

/-- On-disk cell size of a data type (`BongoDataType::disc_size`): one
presence byte plus the fixed payload (plus one terminator byte for
varchars). -/
def BongoDataType.disc_size (t : BongoDataType) : Nat :=
  match t with
  | .Int => 8 + 1
  | .Bool => 1 + 1
  | .Varchar size => size + 1 + 1

/-- Big-endian byte decomposition of a natural number into `w` bytes
(model of `i64::to_be_bytes` after two-complement reinterpretation). -/
def natToBEBytes : Nat → Nat → List Nat
  | 0, _ => []
  | w + 1, v => natToBEBytes w (v / 256) ++ [v % 256]

/-- Big-endian byte recomposition (model of `i64::from_be_bytes` before
two-complement reinterpretation). -/
def natFromBEBytes (bs : List Nat) : Nat :=
  bs.foldl (fun acc b => acc * 256 + b) 0

/-- The two-complement bit pattern of an `i64` value, as a natural number
below 2^64. -/
def i64ToPattern (n : Int) : Nat :=
  (n % (2 ^ 64 : Int)).toNat

/-- Reinterpretation of a 64-bit pattern as a signed `i64` value. -/
def patternToI64 (m : Nat) : Int :=
  if m < 2 ^ 63 then (m : Int) else (m : Int) - 2 ^ 64

/-- The all-zero padding function used for executable runs; round-trip
theorems quantify over arbitrary padding instead. -/
def pad0 : Nat → Nat := fun _ => 0

/-- Encoding of one literal into its on-disk bytes, from
`BongoLiteral::as_disc_bytes` in `bongo-core/src/types.rs`.  `pad` supplies
the bytes the source leaves uninitialised after `Vec::set_len`. -/
def BongoLiteral.as_disc_bytes (lit : BongoLiteral) (t : BongoDataType)
    (pad : Nat → Nat) : Except BongoError (List Nat) :=
  if ¬ t.can_store lit then
    .error (.InternalError ("Datatype mismatch on conversion to bytes."))
  else
    match lit with
    | .Int val => .ok (1 :: natToBEBytes 8 (i64ToPattern val))
    | .Bool val => .ok [1, if val then 1 else 0]
    | .Null => .ok (0 :: (List.range (t.disc_size - 1)).map pad)
    | .Varchar val =>
      .ok (1 :: (val ++ [0xFF] ++ (List.range (t.disc_size - (val.length + 2))).map pad))

/-- Decoding of one literal from its on-disk bytes, from
`BongoLiteral::from_disc_bytes` in `bongo-core/src/types.rs`. -/
def BongoLiteral.from_disc_bytes (bytes : List Nat) (t : BongoDataType) :
    Except BongoError BongoLiteral :=
  if bytes.length ≠ t.disc_size then
    .error (.InternalError ("Cannot read literal from bytes due to wrong size of byte array."))
  else if bytes.headD 0 = 0 then
    .ok .Null
  else
    let payload := bytes.tail
    match t with
    | .Int => .ok (.Int (patternToI64 (natFromBEBytes payload)))
    | .Bool => .ok (.Bool (payload.headD 0 ≠ 0))
    | .Varchar _ =>
      match payload.findIdx? (fun b => b = 0xFF) with
      | none => .error (.InternalError ("Cannot read literal from bytes due to corrupted format."))
      | some delim =>
        let content := payload.take delim
        if validUtf8 content then
          .ok (.Varchar content)
        else
          .error (.InternalError ("Cannot read literal from bytes due to corrupted format."))

/-- Encoding of a row into its on-disk bytes, from `Row::as_disc_bytes` in
`bongo-core/src/types.rs`: the concatenation of the cell encodings, after
a length check against the column definition. -/
def Row.as_disc_bytes (row : Row) (defs : List BongoDataType)
    (pad : Nat → Nat) : Except BongoError (List Nat) :=
  if row.length ≠ defs.length then
    .error (.InternalError ("Row to big for definition and therefore cannot be converted to byte representation."))
  else
    row.zip defs |>.foldr
      (fun (cell : BongoLiteral × BongoDataType) acc => do
        let bs ← cell.1.as_disc_bytes cell.2 pad
        let rest ← acc
        return bs ++ rest)
      (.ok [])

/-- One `read_bytes` call of the `object` crate as used by
`Row::from_disc_bytes`: the sub-slice of `size` bytes at `offset`, failing
when it runs past the end. -/
def readBytesAt (bytes : List Nat) (offset size : Nat) : Except BongoError (List Nat) :=
  if offset + size ≤ bytes.length then
    .ok ((bytes.drop offset).take size)
  else
    .error (.InternalError ("Reading row from bytes not successful."))

/-- Decoding of a row from its on-disk bytes at a running offset, the loop
of `Row::from_disc_bytes` in `bongo-core/src/types.rs`. -/
def Row.from_disc_bytes_aux (bytes : List Nat) (offset : Nat) :
    List BongoDataType → Except BongoError Row
  | [] => .ok []
  | d :: ds => do
    let chunk ← readBytesAt bytes offset d.disc_size
    let lit ← BongoLiteral.from_disc_bytes chunk d
    let rest ← Row.from_disc_bytes_aux bytes (offset + d.disc_size) ds
    return lit :: rest

/-- Decoding of a row from its on-disk bytes, from `Row::from_disc_bytes`
in `bongo-core/src/types.rs`. -/
def Row.from_disc_bytes (bytes : List Nat) (defs : List BongoDataType) :
    Except BongoError Row :=
  Row.from_disc_bytes_aux bytes 0 defs

/-- Rust type invariant of the values inside a literal: `i64` range for
integers and UTF-8 validity for strings (a Rust `String` always satisfies
it by construction). -/
def LitInv : BongoLiteral → Prop
  | .Int n => -(2 ^ 63) ≤ n ∧ n < 2 ^ 63
  | .Varchar s => validUtf8 s = true
  | _ => True

instance : DecidablePred LitInv := by
  intro l
  cases l <;> simp [LitInv] <;> infer_instance

/-- Binary operators of the expression IR, from
`bongo-server/src/statement.rs` (`BinOp`). -/
inductive BinOp where
  | Gt
  | Lt
  | GtEq
  | LtEq
  | Eq
  | NotEq
  | And
  | Or
deriving DecidableEq

/-- Lexicographic byte comparison, the order of Rust `String`
(UTF-8 byte-wise comparison). -/
def cmpBytes : List Nat → List Nat → Ordering
  | [], [] => .eq
  | [], _ :: _ => .lt
  | _ :: _, [] => .gt
  | x :: xs, y :: ys =>
    if x < y then .lt else if y < x then .gt else cmpBytes xs ys

/-- Discriminant of a literal, the model of `mem::discriminant`. -/
def BongoLiteral.discr : BongoLiteral → Nat
  | .Int _ => 0
  | .Bool _ => 1
  | .Varchar _ => 2
  | .Null => 3

/-- The manual `PartialOrd` implementation of `BongoLiteral`: literals
compare only within the same variant. -/
def BongoLiteral.partCmp : BongoLiteral → BongoLiteral → Option Ordering
  | .Int l, .Int r => some (compare l r)
  | .Int _, _ => none
  | .Bool l, .Bool r => some (compare l r)
  | .Bool _, _ => none
  | .Varchar l, .Varchar r => some (cmpBytes l r)
  | .Varchar _, _ => none
  | .Null, .Null => some .eq
  | .Null, _ => none

/-- Application of a binary operator to two evaluated literals, from
`BinOp::apply` in `bongo-server/src/statement.rs`: `Null` operands are
first replaced by `Bool(false)`, then operands of unequal discriminant
are a runtime error; comparisons use the `PartialOrd`/`PartialEq`
instances and `AND`/`OR` require boolean operands. -/
def BinOp.apply (op : BinOp) (left right : BongoLiteral) : Except BongoError BongoLiteral :=
  let left := if left.discr = BongoLiteral.Null.discr then .Bool false else left
  let right := if right.discr = BongoLiteral.Null.discr then .Bool false else right
  if left.discr ≠ right.discr then
    .error (.SqlRuntimeError ("Cannot compare instances of different datatypes."))
  else
    match op with
    | .Lt => .ok (.Bool (left.partCmp right == some .lt))
    | .Gt => .ok (.Bool (left.partCmp right == some .gt))
    | .GtEq => .ok (.Bool (left.partCmp right == some .gt || left.partCmp right == some .eq))
    | .LtEq => .ok (.Bool (left.partCmp right == some .lt || left.partCmp right == some .eq))
    | .Eq => .ok (.Bool (left == right))
    | .NotEq => .ok (.Bool (left != right))
    | _ =>
      match left, right with
      | .Bool val_left, .Bool val_right =>
        match op with
        | .And => .ok (.Bool (val_left && val_right))
        | .Or => .ok (.Bool (val_left || val_right))
        | _ => .error (.SqlRuntimeError ("Cannot compare instances of different datatypes."))
      | _, _ => .error (.SqlRuntimeError ("Cannot compare instances of different datatypes."))

/-- Conversion of a literal to a boolean verdict
(`BongoLiteral::as_bool`). -/
def BongoLiteral.as_bool (lit : BongoLiteral) :=
  match lit with
  | .Bool val => (Except.ok val : Except BongoError _)
  | _ => .error (.SqlRuntimeError ("Cannot convert to boolean value."))

/-- Expression IR, from `bongo-server/src/statement.rs` (`Expr`). -/
inductive Expr where
  | BinaryExpr (left : Expr) (op : BinOp) (right : Expr)
  | Identifier (name : String)
  | Value (val : BongoLiteral)
deriving DecidableEq

/-- Recursive evaluation of an expression against a row
(`Expr::eval_helper`).  The identifier case indexes `row` at the position
of the name in `cols`; `Expr::eval` guards `row.length = cols.length`, so
whenever that guard has passed the `getD` default is unreachable. -/
def Expr.eval_helper (e : Expr) (row : Row) (cols : List String) : Except BongoError BongoLiteral :=
  match e with
  | .BinaryExpr left op right => do
    let left_val ← left.eval_helper row cols
    let right_val ← right.eval_helper row cols
    op.apply left_val right_val
  | .Identifier name =>
    match cols.findIdx? (fun n => n == name) with
    | none => .error (.SqlRuntimeError ("Column does not exist."))
    | some pos => .ok (row.getD pos .Null)
  | .Value val => .ok val

/-- Evaluation of an expression to a boolean verdict (`Expr::eval`). -/
def Expr.eval (e : Expr) (row : Row) (cols : List String) : Except BongoError Bool :=
  if row.length ≠ cols.length then
    .error (.InternalError ("Column size and row size are different"))
  else
    e.eval_helper row cols >>= BongoLiteral.as_bool

/-- The in-memory hash index of one table
(`HashMap<BongoLiteral, Vec<u64>>`), modelled as an association list. -/
abbrev Idx := List (BongoLiteral × List Nat)

/-- The two comparison operators an index probe supports, from
`bongo-server/src/executor.rs` (`IndexBinOp`). -/
inductive IndexBinOp where
  | Eq
  | NotEq
deriving DecidableEq

/-- Conversion from `BinOp` (`TryFrom<&BinOp> for IndexBinOp`). -/
def IndexBinOp.tryFrom (op : BinOp) : Option IndexBinOp :=
  match op with
  | .Eq => some .Eq
  | .NotEq => some .NotEq
  | _ => none

/-- A trivially indexable root predicate, from
`bongo-server/src/executor.rs` (`TrivialIdxExpr`). -/
structure TrivialIdxExpr where
  col : String
  op : IndexBinOp
  val : BongoLiteral
deriving DecidableEq

/-- Classification of a predicate root as a trivial index probe, from
`TryFrom<(&str, &Expr)> for TrivialIdxExpr` in
`bongo-server/src/executor.rs` (`Err(())` becomes `none`). -/
def TrivialIdxExpr.tryFrom (idx_col : String) (expr : Expr) : Option TrivialIdxExpr :=
  match expr with
  | .BinaryExpr left op right =>
    match IndexBinOp.tryFrom op with
    | some idx_op =>
      match left with
      | .Identifier name =>
        match right with
        | .BinaryExpr _ _ _ => none
        | .Identifier _ => none
        | .Value val => if name = idx_col then some ⟨name, idx_op, val⟩ else none
      | .Value val =>
        match right with
        | .BinaryExpr _ _ _ => none
        | .Identifier name => if name = idx_col then some ⟨name, idx_op, val⟩ else none
        | .Value _ => none
      | .BinaryExpr _ _ _ => none
    | none => none
  | _ => none

/-- Offsets selected by the planner together with the residual predicate,
from `bongo-server/src/executor.rs` (`DiscIndexer`). -/
structure DiscIndexer where
  indices : List Nat
  expr : Option Expr
deriving DecidableEq

/-- All offsets stored in the index (`DiscIndexer::idx_to_indices`). -/
def idx_to_indices (idx : Idx) : List Nat :=
  (idx.map (fun e => e.2)).flatten

/-- Offset list stored under one key, empty when the key is absent; this
is the `probe` operation of the spec (`map.get` with `None since vec![]`). -/
def idxProbe (m : Idx) (k : BongoLiteral) : List Nat :=
  (m.lookup k).getD []

/-- Removal of the whole entry of one key (`HashMap::remove`). -/
def idxRemoveEntry (m : Idx) (k : BongoLiteral) : Idx :=
  m.eraseP (fun e => e.1 == k)

/-- Replacement of the offset list stored under one key, the in-place
mutation through `HashMap::get_mut`. -/
def idxSetEntry : Idx → BongoLiteral → List Nat → Idx
  | [], _, _ => []
  | (k', l) :: rest, k, nl =>
    if k' = k then (k', nl) :: rest else (k', l) :: idxSetEntry rest k nl

/-- Appending one offset under one key: push onto the existing list, else
create a fresh singleton entry (the index-update match in
`Executor::insert` and `Executor::update`). -/
def idxInsert : Idx → BongoLiteral → Nat → Idx
  | [], k, off => [(k, [off])]
  | (k', l) :: rest, k, off =>
    if k' = k then (k', l ++ [off]) :: rest else (k', l) :: idxInsert rest k off

/-- The probe planner, from `DiscIndexer::from_opt_expr` in
`bongo-server/src/executor.rs`. -/
def DiscIndexer.from_opt_expr (idx : String × Idx) (opt_expr : Option Expr) : DiscIndexer :=
  match opt_expr with
  | none => ⟨idx_to_indices idx.2, none⟩
  | some expr =>
    match TrivialIdxExpr.tryFrom idx.1 expr with
    | some idx_expr =>
      match idx_expr.op with
      | .Eq =>
        match idx.2.lookup idx_expr.val with
        | none => ⟨[], none⟩
        | some indices => ⟨indices, none⟩
      | .NotEq => ⟨idx_to_indices (idxRemoveEntry idx.2 idx_expr.val), none⟩
    | none => ⟨idx_to_indices idx.2, some expr⟩

/-- One projection item of a `SELECT`, from
`bongo-server/src/statement.rs` (`SelectItem`). -/
inductive SelectItem where
  | ColumnName (name : String)
  | Wildcard
deriving DecidableEq

/-- An `ORDER BY` key, from `bongo-server/src/statement.rs` (`Order`). -/
inductive Order where
  | Asc (col : String)
  | Desc (col : String)
deriving DecidableEq

/-- A `SET` assignment of an `UPDATE`, from
`bongo-server/src/statement.rs` (`Assignment`). -/
structure Assignment where
  col_name : String
  val : BongoLiteral
deriving DecidableEq

/-- Application of `SET` assignments to a row, from
`ApplyAssignments for Row` in `bongo-server/src/statement.rs`. -/
def apply_assignments (row : Row) (assignments : List Assignment)
    (cols : List String) : Except BongoError Row :=
  if row.length ≠ cols.length then
    .error (.InternalError ("Cannot assign to row because column definition has a different size than row."))
  else
    assignments.foldlM
      (fun r a =>
        match cols.findIdx? (fun c => c == a.col_name) with
        | none => .error (.SqlRuntimeError ("Cannot apply assignment, because column does not exist"))
        | some i => .ok (r.set i a.val))
      row

/-- The statement IR, from `bongo-server/src/statement.rs`
(`Statement`). -/
inductive Statement where
  | Select (cols : List SelectItem) (table : String) (condition : Option Expr) (order : Option Order)
  | Insert (table : String) (cols : List String) (rows : List Row)
  | Update (table : String) (assignments : List Assignment) (condition : Option Expr)
  | Delete (table : String) (condition : Option Expr)
  | CreateTable (table : String) (cols : List ColumnDef)
  | DropTable (names : List String)
  | Flush
  | CreateDB (name : String)
  | DropDB (database : String)
deriving DecidableEq

/-- In-memory metadata of one table, from `bongo-server/src/executor.rs`
(`TableMetaData`). -/
structure TableMetaData where
  cols : List ColumnDef
  idx : String × Idx
  ghosts : List Nat
  row_size : Nat
  row_count : Nat
deriving DecidableEq

/-- One table of the engine: its metadata together with the content of
its `data.bongo` row file. -/
structure TableState where
  meta : TableMetaData
  disc : List Nat
deriving DecidableEq

/-- Whether a row can be stored in this table
(`TableMetaData::can_store`). -/
def TableMetaData.can_store (t : TableMetaData) (row : Row) :=
  row.length == t.cols.length &&
    (row.zip t.cols).all (fun p => p.2.data_type.can_store p.1)

/-- `Vec::pop`: removes and returns the last element. -/
def vecPop {α : Type} (l : List α) : Option (α × List α) :=
  match l.getLast? with
  | none => none
  | some x => some (x, l.dropLast)

/-- `Vec::remove(i)`: removes the element at position `i`, panicking when
`i` is out of bounds. -/
def vecRemoveAt {α : Type} (l : List α) (i : Nat) : Except ExecErr (List α) :=
  if i < l.length then .ok (l.eraseIdx i)
  else .error (.crash ("removal index should be less than len"))

/-- Overwrite of `bytes.length` bytes of the row file at byte offset
`off` (a `seek` followed by `write_all`); the file grows when the write
runs past its end. -/
def writeAt (disc : List Nat) (off : Nat) (bytes : List Nat) : List Nat :=
  disc.take off ++ List.replicate (off - disc.length) 0 ++ bytes ++
    disc.drop (off + bytes.length)

/-- Read of `size` bytes of the row file at byte offset `off` (a `seek`
followed by `read_exact`), failing past the end of the file. -/
def readAt (disc : List Nat) (off size : Nat) : Except ExecErr (List Nat) :=
  if off + size ≤ disc.length then .ok ((disc.drop off).take size)
  else .error (.err (.ReadFileError ("Could not read row from disc")))

/-- Lift of a returned `BongoError` into the execution result. -/
def liftB {β : Type} (r : Except BongoError β) : Except ExecErr β :=
  r.mapError .err

/-- The per-row body of the `Executor::insert` write loop in
`bongo-server/src/executor.rs`: pop a ghost offset (else seek to the end
of the file), write the encoded row there, and insert the offset into the
index under the row's first cell.  Returns the new state and the offset
written. -/
def Executor.insertRowStep (t : TableState) (row : Row) :
    Except ExecErr (TableState × Nat) := do
  let (pos, ghosts) :=
    match vecPop t.meta.ghosts with
    | some (loc, rest) => (loc, rest)
    | none => (t.disc.length, t.meta.ghosts)
  let bytes ← liftB (row.as_disc_bytes (get_d_types t.meta.cols) pad0)
  let disc := writeAt t.disc pos bytes
  let key ←
    match row with
    | [] => .error (.crash ("index out of bounds: row is empty"))
    | k :: _ => pure k
  let idx2 := idxInsert t.meta.idx.2 key pos
  return (TableState.mk
    (TableMetaData.mk t.meta.cols (t.meta.idx.1, idx2) ghosts t.meta.row_size t.meta.row_count)
    disc, pos)

/-- Execution of an `Insert` statement on one table, from
`Executor::insert` in `bongo-server/src/executor.rs`: verify the column
list and the storability of every row, then run the write loop and bump
`row_count`. -/
def Executor.insert (t : TableState) (ins_cols : List String) (rows : List Row) :
    Except ExecErr TableState := do
  if get_col_names t.meta.cols ≠ ins_cols then
    .error (.err (.SqlRuntimeError ("Specified columns do not match columns of the table.")))
  else if ¬ rows.all (fun r => t.meta.can_store r) then
    .error (.err (.SqlRuntimeError ("The row cannot be inserted, because not all elements have the correct type")))
  else do
    let t' ← rows.foldlM (fun st row => do
      let (st', _) ← Executor.insertRowStep st row
      pure st') t
    return TableState.mk
      (TableMetaData.mk t'.meta.cols t'.meta.idx t'.meta.ghosts t'.meta.row_size
        (t'.meta.row_count + rows.length))
      t'.disc

/-- The per-offset body of the `Executor::update` loop in
`bongo-server/src/executor.rs`: read and decode the row at the offset,
evaluate the residual predicate, on a hit apply the assignments, write
the row back at the same offset, and when the assignments touch the
indexed column move the offset in the index.  The removal of the old
index entry calls `Vec::remove(i as usize)` with `i` the byte offset,
exactly as the source does. -/
def Executor.updateRowStep (assignments : List Assignment) (rexpr : Option Expr)
    (t : TableState) (i : Nat) : Except ExecErr TableState := do
  let col_names := get_col_names t.meta.cols
  let bytes ← readAt t.disc i t.meta.row_size
  let row ← liftB (Row.from_disc_bytes bytes (get_d_types t.meta.cols))
  let old_idx_val ←
    match row with
    | [] => .error (.crash ("index out of bounds: row is empty"))
    | k :: _ => pure k
  let hit ←
    match rexpr with
    | none => pure true
    | some e => liftB (e.eval row col_names)
  if hit then
    let row' ← liftB (apply_assignments row assignments col_names)
    let bytes' ← liftB (row'.as_disc_bytes (get_d_types t.meta.cols) pad0)
    let disc := writeAt t.disc i bytes'
    if (assignments.map (fun a => a.col_name)).contains t.meta.idx.1 then
      match t.meta.idx.2.lookup old_idx_val with
      | none => .error (.err (.InternalError ("Index not correct.")))
      | some indices => do
        let idxAfterRemove ←
          if indices.length = 1 then
            pure (idxRemoveEntry t.meta.idx.2 old_idx_val)
          else do
            let l' ← vecRemoveAt indices i
            pure (idxSetEntry t.meta.idx.2 old_idx_val l')
        let new_val ←
          match row' with
          | [] => .error (.crash ("index out of bounds: row is empty"))
          | k :: _ => pure k
        let idx2 := idxInsert idxAfterRemove new_val i
        return TableState.mk
          (TableMetaData.mk t.meta.cols (t.meta.idx.1, idx2) t.meta.ghosts t.meta.row_size t.meta.row_count)
          disc
    else
      return TableState.mk t.meta disc
  else
    return t

/-- Execution of an `Update` statement on one table, from
`Executor::update` in `bongo-server/src/executor.rs`. -/
def Executor.update (t : TableState) (assignments : List Assignment)
    (condition : Option Expr) : Except ExecErr TableState :=
  let col_names := get_col_names t.meta.cols
  if (assignments.map (fun a => a.col_name)).any (fun name => ¬ col_names.contains name) then
    .error (.err (.SqlRuntimeError ("There were columns in the SET expressions that are not columns of the table")))
  else
    let indexer := DiscIndexer.from_opt_expr t.meta.idx condition
    indexer.indices.foldlM (Executor.updateRowStep assignments indexer.expr) t

/-- Execution of a `Delete` statement on one table, from
`Executor::delete` in `bongo-server/src/executor.rs`: plan the offsets,
read-and-test each candidate when a residual predicate exists, then strip
the victims from every index list, drop emptied entries, decrement
`row_count` and append the victims to `ghosts`. -/
def Executor.delete (t : TableState) (condition : Option Expr) :
    Except ExecErr TableState := do
  let indexer := DiscIndexer.from_opt_expr t.meta.idx condition
  let indices_to_delete ←
    match indexer.expr with
    | none => pure indexer.indices
    | some expr =>
      indexer.indices.foldlM (fun acc i => do
        let bytes ← readAt t.disc i t.meta.row_size
        let row ← liftB (Row.from_disc_bytes bytes (get_d_types t.meta.cols))
        let hit ← liftB (expr.eval row (get_col_names t.meta.cols))
        pure (if hit then acc ++ [i] else acc)) []
  let idx2 := (t.meta.idx.2.map
      (fun e => (e.1, e.2.filter (fun i => ¬ indices_to_delete.contains i)))).filter
    (fun e => ¬ e.2.isEmpty)
  let new_count ←
    if indices_to_delete.length ≤ t.meta.row_count then
      pure (t.meta.row_count - indices_to_delete.length)
    else
      .error (.crash ("attempt to subtract with overflow"))
  return TableState.mk
    (TableMetaData.mk t.meta.cols (t.meta.idx.1, idx2)
      (t.meta.ghosts ++ indices_to_delete) t.meta.row_size new_count)
    t.disc

/-- Execution of a `CreateTable` statement, from
`Executor::create_table` in `bongo-server/src/executor.rs`: a fresh table
with an empty data file, an empty ghost list, an empty index keyed on the
first defined column, and the summed row size.  Directory handling is
outside the single-table model. -/
def Executor.create_table (cols : List ColumnDef) : Except ExecErr TableState := do
  let first ←
    match cols with
    | [] => .error (.crash ("index out of bounds: no columns"))
    | c :: _ => pure c
  let row_size := (cols.map (fun c => c.data_type.disc_size)).sum
  return TableState.mk (TableMetaData.mk cols (first.name, []) [] row_size 0) []

/-- Resolution of the projection items of a `Select` into column indices,
the loop over `select.cols` in `Executor::select`
(`bongo-server/src/executor.rs` lines 358-374): a named column pushes its
position, a wildcard replaces the whole list by the full range. -/
def resolveSelectItemsAux (cols : List ColumnDef) (acc : List Nat) :
    List SelectItem → Except BongoError (List Nat)
  | [] => .ok acc
  | .ColumnName name :: rest =>
    match cols.findIdx? (fun c => c.name == name) with
    | none => .error (.SqlRuntimeError ("The column does not exist."))
    | some loc => resolveSelectItemsAux cols (acc ++ [loc]) rest
  | .Wildcard :: rest => resolveSelectItemsAux cols (List.range cols.length) rest

/-- Resolution of a full projection list, starting from the empty
accumulator as `Executor::select` does. -/
def resolveSelectItems (cols : List ColumnDef) (items : List SelectItem) :
    Except BongoError (List Nat) :=
  resolveSelectItemsAux cols [] items

/-- Removal of the non-selected cells of one result row, from
`Executor::select` (`bongo-server/src/executor.rs` lines 444-451):
enumerate the cells, keep those whose index occurs in the selection, drop
the indices again. -/
def projectRow (selected : List Nat) (row : Row) : Row :=
  (row.enum.filter (fun p => selected.contains p.1)).map (fun p => p.2)

/-- Modelled from the spec: the repository's current `SqlParser::parse`
(`bongo-server/src/sql_parser/parser.rs`) is not among the sources; the
file at that path is a stale revision that does not type-check against
`statement.rs` and contains neither the flush fast path nor the
empty-statement check, both of which the spec describes and the rest of
the crate (`Statement::Flush` dispatch, `EmptySqlStatementError`)
presupposes.  Following the spec: the string `flush` followed by optional
whitespace and a terminating semicolon, case-insensitively, is recognized
before the surface parser runs. -/
def isFlushStatement (sql : List Char) : Bool :=
  (sql.take 5).map Char.toLower == ['f', 'l', 'u', 's', 'h'] &&
  decide (6 ≤ sql.length) &&
  ((sql.drop 5).dropLast.all Char.isWhitespace) &&
  ((sql.drop 5).getLast? == some ';')

/-- Modelled from the spec: `SqlParser::parse`.  The third-party surface
parser is an external collaborator and enters as the `surface` argument
(its statement list or a parse error); `reduce` is the AST-to-IR
reduction.  Per the spec, a flush string is recognized before the surface
parser is consulted, a surface error becomes a syntax error, an empty
statement list becomes the empty-statement error, and otherwise the first
statement is reduced. -/
def SqlParser.parse {α : Type} (surface : Except String (List α))
    (reduce : α → Except BongoError Statement) (sql : List Char) :
    Except BongoError Statement :=
  if isFlushStatement sql then .ok .Flush
  else
    match surface with
    | .error msg => .error (.SqlSyntaxError msg)
    | .ok [] => .error .EmptySqlStatementError
    | .ok (ast :: _) => reduce ast

/-- A request from a bongo client, from `bongo-core/src/bongo_request.rs`
(`BongoRequest`). -/
structure BongoRequest where
  sql : String
deriving DecidableEq

/-- The request parser, from `BongoRequestParser::parse` in
`bongo-core/src/bongo_request.rs`: `String::from_utf8(..).unwrap()` on
the payload (a panic on invalid UTF-8), then `serde_json::from_str`.
The third-party `serde_json` deserializer is an external collaborator
and enters as the `serde` argument, applied to the UTF-8-checked
payload bytes. -/
def BongoRequestParser.parse (serde : List Nat → Option BongoRequest)
    (bytes : List Nat) : Except ExecErr (Option BongoRequest) :=
  if validUtf8 bytes then .ok (serde bytes)
  else .error (.crash ("called unwrap on an Err value: invalid UTF-8"))

/-- The per-frame response computation of the webserver read loop, from
`Webserver::handle_connection` in `webserver/src/lib.rs`: a parsed
request is answered by the handler, a failed parse by the fixed error
string. -/
def Webserver.respondToFrame (serde : List Nat → Option BongoRequest)
    (handle_request : BongoRequest → String) (payload : List Nat) :
    Except ExecErr String :=
  match BongoRequestParser.parse serde payload with
  | .error e => .error e
  | .ok (some request) => .ok (handle_request request)
  | .ok none => .ok ("Request format could not be parsed, request is ignored.")

/-- Columns of the concrete two-column table used by the executable
counterexample runs. -/
def exampleCols : List ColumnDef :=
  [ColumnDef.mk "a" .Int, ColumnDef.mk "b" .Bool]

/-- First example row. -/
def exampleRow1 : Row := [.Int 1, .Bool false]

/-- Second example row. -/
def exampleRow2 : Row := [.Int 1, .Bool true]

/-- The predicate `b = true`. -/
def whereBTrue : Expr := .BinaryExpr (.Identifier "b") .Eq (.Value (.Bool true))

/-- The assignment list `SET a = 42`. -/
def setA42 : List Assignment := [Assignment.mk "a" (.Int 42)]

/-- Concrete run for the update-index slip: create the table, insert two
rows sharing the indexed value `1` (offsets 0 and 11), then update the
row at offset 11 while assigning the indexed column. -/
def updateSlipRun : Except ExecErr TableState := do
  let t ← Executor.create_table exampleCols
  let t ← Executor.insert t ["a", "b"] [exampleRow1, exampleRow2]
  Executor.update t setA42 (some whereBTrue)

/-- Concrete five-statement run reaching a silently corrupted index:
create, insert two rows with indexed value `1`, delete all (both offsets
become ghosts), insert the two rows again (LIFO ghost reuse lands them at
offsets 11 and 0, index list `[11, 0]`), then update the row at offset 0
assigning the indexed column: `Vec::remove(0)` removes offset 11 instead
of offset 0. -/
def accountingRun5 : Except ExecErr TableState := do
  let t ← Executor.create_table exampleCols
  let t ← Executor.insert t ["a", "b"] [exampleRow1, exampleRow2]
  let t ← Executor.delete t none
  let t ← Executor.insert t ["a", "b"] [exampleRow1, exampleRow2]
  Executor.update t setA42 (some whereBTrue)

/-- Sixth statement on top of `accountingRun5`: delete the rows whose
indexed column equals 42 through the equality probe. -/
def accountingRun6 : Except ExecErr TableState := do
  let t ← accountingRun5
  Executor.delete t (some (.BinaryExpr (.Identifier "a") .Eq (.Value (.Int 42))))

/-- The slot-accounting equation of the spec, as a boolean: the number of
ghost offsets plus the total number of indexed offsets equals
file length divided by row size. -/
def countingBool (t : TableState) : Bool :=
  t.meta.ghosts.length + ((t.meta.idx.2.map (fun e => e.2.length)).sum)
    == t.disc.length / t.meta.row_size

/-- Specification-side classification of a trivial index probe, written
from the spec's words (not from the source, for comparison with
`TrivialIdxExpr.tryFrom`): a root predicate `c = v`, `v = c`, `c ≠ v` or
`v ≠ c`, with `c` the indexed column and `v` a literal value; every other
shape is not a trivial probe. -/
def trivialProbeSpec (c : String) (e : Expr) : Option (IndexBinOp × BongoLiteral) :=
  match e with
  | .BinaryExpr (.Identifier n) .Eq (.Value v) => if n = c then some (.Eq, v) else none
  | .BinaryExpr (.Value v) .Eq (.Identifier n) => if n = c then some (.Eq, v) else none
  | .BinaryExpr (.Identifier n) .NotEq (.Value v) => if n = c then some (.NotEq, v) else none
  | .BinaryExpr (.Value v) .NotEq (.Identifier n) => if n = c then some (.NotEq, v) else none
  | _ => none

/-! ## Theorems -/

/-- Claim C1, counterexample.  The claim asserts that every comparison in
which at least one operand is `Null` succeeds with a boolean verdict and
that only `Null = Null` yields true.  Both parts fail on the code:
`Null = Int(3)` is a runtime error (the `Null` is folded to `Bool(false)`
whose discriminant differs from `Int`), and `Null ≤ Null` yields true
(`false ≤ false`). -/
theorem binop_null_claim_counterexample :
    (BinOp.apply .Eq .Null (.Int 3)).isOk = false ∧
    BinOp.apply .LtEq .Null .Null = .ok (.Bool true) := by
  exact ⟨rfl, rfl⟩

/-- Claim C1, amended.  For the six comparison operators: both operands
`Null` succeeds, yielding true exactly for `=`, `≤`, `≥` (Null folds to
`Bool(false)` on both sides); a `Null` against a `Bool` succeeds and
behaves as `Bool(false)` against that boolean; a `Null` against an `Int`
or a `Varchar` is a `SqlRuntimeError`. -/
theorem binop_apply_null_cases (op : BinOp)
    (hcmp : op = .Lt ∨ op = .Gt ∨ op = .GtEq ∨ op = .LtEq ∨ op = .Eq ∨ op = .NotEq) :
    (BinOp.apply op .Null .Null =
      .ok (.Bool (op == .Eq || op == .LtEq || op == .GtEq))) ∧
    (∀ b, BinOp.apply op .Null (.Bool b) = BinOp.apply op (.Bool false) (.Bool b) ∧
          BinOp.apply op (.Bool b) .Null = BinOp.apply op (.Bool b) (.Bool false)) ∧
    (∀ n, (∃ s, BinOp.apply op .Null (.Int n) = .error (.SqlRuntimeError s)) ∧
          (∃ s, BinOp.apply op (.Int n) .Null = .error (.SqlRuntimeError s))) ∧
    (∀ v, (∃ s, BinOp.apply op .Null (.Varchar v) = .error (.SqlRuntimeError s)) ∧
          (∃ s, BinOp.apply op (.Varchar v) .Null = .error (.SqlRuntimeError s))) := by
  rcases hcmp with rfl | rfl | rfl | rfl | rfl | rfl <;>
    exact ⟨rfl,
           fun b => ⟨rfl, rfl⟩,
           fun n => ⟨⟨_, rfl⟩, ⟨_, rfl⟩⟩,
           fun v => ⟨⟨_, rfl⟩, ⟨_, rfl⟩⟩⟩

/-- Witness for `binop_apply_null_cases` at the equality operator. -/
theorem binop_apply_null_cases_witness :
    BinOp.apply .Eq .Null .Null =
      .ok (.Bool ((BinOp.Eq == BinOp.Eq) || (BinOp.Eq == BinOp.LtEq) || (BinOp.Eq == BinOp.GtEq))) :=
  (binop_apply_null_cases .Eq (by decide)).1

set_option maxRecDepth 4000 in
/-- Claim C2.  The update loop is meant to remove the updated row's
offset from the index list of its old first-column value, but it calls
`Vec::remove(i as usize)` with `i` the byte offset, which removes the
element at position `i`: on the concrete table with two rows of indexed
value 1 at offsets 0 and 11, updating the row at offset 11 calls
`remove(11)` on a list of length 2 and panics. -/
theorem update_indexed_removal_panics :
    updateSlipRun = .error (.crash ("removal index should be less than len")) := by
  decide

set_option maxRecDepth 4000 in
/-- Claim C4.  Six successful statements violate the slot-accounting
equation: the update of `accountingRun5` silently removes the wrong
offset from the index (offset 11 instead of 0, leaving offset 0 indexed
twice), after which the equation still happens to hold numerically, but
the following successful delete removes both copies of offset 0 from the
index while pushing only one ghost, leaving 1 accounted slot against
file_length / row_size = 2. -/
theorem slot_accounting_violated_after_successful_statements :
    accountingRun5.map countingBool = .ok true ∧
    accountingRun6.map countingBool = .ok false := by
  exact ⟨by decide, by decide⟩

/-- Claim C9, counterexample.  On the invalid-UTF-8 payload `[0xFF]` the
request parser panics (the `unwrap` on `String::from_utf8`) instead of
producing the fixed error response; and the response produced on a
parse failure is the string "Request format could not be parsed, request
is ignored.", not the claimed "Request format could not be parsed". -/
theorem request_parse_claim_counterexample :
    (Webserver.respondToFrame (fun _ => none) (fun _ => "") [0xFF]).isOk = false ∧
    Webserver.respondToFrame (fun _ => none) (fun _ => "") [120] =
      .ok ("Request format could not be parsed, request is ignored.") ∧
    ("Request format could not be parsed, request is ignored." ≠
      "Request format could not be parsed") := by
  exact ⟨rfl, rfl, by decide⟩

/-- Claim C9, amended.  For every payload of valid UTF-8 bytes on which
the JSON deserialization produces no request, the server answers the
frame with the fixed string "Request format could not be parsed, request
is ignored."; on a payload of invalid UTF-8 bytes the request parser
panics instead of answering. -/
theorem request_parse_behavior (serde : List Nat → Option BongoRequest)
    (handle : BongoRequest → String) (payload : List Nat)
    (hutf : validUtf8 payload = true) (hjson : serde payload = none) :
    Webserver.respondToFrame serde handle payload =
      .ok ("Request format could not be parsed, request is ignored.") ∧
    (∀ bad : List Nat, validUtf8 bad = false →
      ∃ msg, Webserver.respondToFrame serde handle bad = .error (.crash msg)) := by
  constructor
  · simp [Webserver.respondToFrame, BongoRequestParser.parse, hutf, hjson]
  · intro bad hbad
    refine ⟨("called unwrap on an Err value: invalid UTF-8"), ?_⟩
    simp [Webserver.respondToFrame, BongoRequestParser.parse, hbad]

/-- Witness for `request_parse_behavior` at the valid-UTF-8 payload
`[120]` (the JSON-invalid text "x") with a deserializer that rejects
it. -/
theorem request_parse_behavior_witness :
    Webserver.respondToFrame (fun _ => none) (fun _ => "") [120] =
      .ok ("Request format could not be parsed, request is ignored.") :=
  (request_parse_behavior (fun _ => none) (fun _ => "") [120] rfl rfl).1

/-- Claim C6 (the current parser source is absent from src/, so the
parser entry point is modelled from the spec).  Every string consisting
of the five letters of "flush" in any case, optional whitespace, and a
terminating semicolon reduces directly to `Flush`, whatever the surface
parser would have produced: the recognition happens before the surface
parser is consulted. -/
theorem flush_recognized_before_surface {α : Type}
    (surface : Except String (List α)) (reduce : α → Except BongoError Statement)
    (f ws : List Char)
    (hf : f.map Char.toLower = ['f', 'l', 'u', 's', 'h'])
    (hws : ∀ c ∈ ws, c.isWhitespace) :
    SqlParser.parse surface reduce (f ++ ws ++ [';']) = .ok .Flush := by
  have hlen : f.length = 5 := by
    have h := congrArg List.length hf
    simpa using h
  have hflush : isFlushStatement (f ++ ws ++ [';']) = true := by
    unfold isFlushStatement
    have htake : (f ++ (ws ++ [';'])).take 5 = f := by
      rw [← hlen]
      exact List.take_left f (ws ++ [';'])
    have hdrop : (f ++ (ws ++ [';'])).drop 5 = ws ++ [';'] := by
      rw [← hlen]
      exact List.drop_left f (ws ++ [';'])
    rw [List.append_assoc, htake, hdrop]
    have h1 : (ws ++ [';']).dropLast = ws := by
      simp
    have h2 : (ws ++ [';']).getLast? = some ';' := by
      simp
    rw [h1, h2, hf]
    simp only [List.length_append, List.length_append, hlen, List.length_singleton]
    have h3 : ws.all Char.isWhitespace = true := by
      rw [List.all_eq_true]
      intro c hc
      exact hws c hc
    simp [h3]
    omega
  unfold SqlParser.parse
  rw [hflush]
  rfl

/-- Witness for `flush_recognized_before_surface` on the mixed-case
string "FLuSh  ;" against a surface parser producing no statements and a
reduction that always errors. -/
theorem flush_recognized_witness :
    SqlParser.parse (Except.ok ([] : List Unit)) (fun _ => .error .EmptySqlStatementError)
      (['F', 'L', 'u', 'S', 'h'] ++ [' ', ' '] ++ [';']) = .ok .Flush :=
  flush_recognized_before_surface _ _ _ _ (by decide) (by decide)

/-- Claim C7 (the current parser source is absent from src/, so the
parser entry point is modelled from the spec).  Whenever the surface
parser reduces the input to zero statements and the input is not a flush
string, parsing returns the empty-statement error value — it fails in no
other way. -/
theorem empty_statement_reduces_to_empty_error {α : Type}
    (reduce : α → Except BongoError Statement) (sql : List Char)
    (hnf : isFlushStatement sql = false) :
    SqlParser.parse (Except.ok ([] : List α)) reduce sql = .error .EmptySqlStatementError := by
  unfold SqlParser.parse
  rw [hnf]
  rfl

/-- Witness for `empty_statement_reduces_to_empty_error` at the empty
statement string. -/
theorem empty_statement_witness :
    SqlParser.parse (Except.ok ([] : List Unit)) (fun _ => .ok .Flush) [] =
      .error .EmptySqlStatementError :=
  empty_statement_reduces_to_empty_error _ [] (by decide)

/-- Helper: every offset the probe returns is an indexed offset. -/
theorem idxProbe_subset (m : Idx) (v : BongoLiteral) (o : Nat)
    (ho : o ∈ idxProbe m v) : o ∈ idx_to_indices m := by
  induction m with
  | nil => simp [idxProbe, List.lookup] at ho
  | cons e rest ih =>
    obtain ⟨k, l⟩ := e
    rw [idxProbe, List.lookup] at ho
    cases hk : v == k
    · rw [hk] at ho
      simp [idx_to_indices]
      have := ih ho
      simp [idx_to_indices] at this
      exact Or.inr this
    · rw [hk] at ho
      simp at ho
      simp [idx_to_indices]
      exact Or.inl ho

/-- Helper: flattening the index after removing the entry of one key
equals the flattened index with the probed offsets filtered out, as long
as no offset is indexed twice. -/
theorem idx_to_indices_removeEntry (m : Idx) (v : BongoLiteral)
    (hnd : (idx_to_indices m).Nodup) :
    idx_to_indices (idxRemoveEntry m v) =
      (idx_to_indices m).filter (fun o => !((idxProbe m v).contains o)) := by
  induction m with
  | nil => rfl
  | cons e rest ih =>
    obtain ⟨k, l⟩ := e
    have hflat : idx_to_indices ((k, l) :: rest) = l ++ idx_to_indices rest := by
      simp [idx_to_indices]
    rw [hflat] at hnd ⊢
    have hdisj : ∀ o ∈ idx_to_indices rest, o ∉ l := by
      intro o horest hol
      exact (List.disjoint_of_nodup_append hnd) hol horest
    by_cases hk : k = v
    · subst hk
      have herase : idxRemoveEntry ((k, l) :: rest) k = rest := by
        simp [idxRemoveEntry, List.eraseP_cons]
      have hprobe : idxProbe ((k, l) :: rest) k = l := by
        simp [idxProbe, List.lookup]
      rw [herase, hprobe, List.filter_append]
      have h1 : l.filter (fun o => !(l.contains o)) = [] := by
        rw [List.filter_eq_nil_iff]
        intro a ha
        simp [ha]
      have h2 : (idx_to_indices rest).filter (fun o => !(l.contains o)) =
          idx_to_indices rest := by
        rw [List.filter_eq_self]
        intro a ha
        simp [hdisj a ha]
      rw [h1, h2, List.nil_append]
    · have herase : idxRemoveEntry ((k, l) :: rest) v = (k, l) :: idxRemoveEntry rest v := by
        simp [idxRemoveEntry, List.eraseP_cons, hk]
      have hbeq : (v == k) = false := by
        simp
        intro h
        exact absurd h.symm hk
      have hprobe : idxProbe ((k, l) :: rest) v = idxProbe rest v := by
        simp [idxProbe, List.lookup, hbeq]
      have hflat2 : idx_to_indices ((k, l) :: idxRemoveEntry rest v) =
          l ++ idx_to_indices (idxRemoveEntry rest v) := by
        simp [idx_to_indices]
      rw [herase, hflat2, hprobe, List.filter_append]
      have h1 : l.filter (fun o => !((idxProbe rest v).contains o)) = l := by
        rw [List.filter_eq_self]
        intro a ha
        by_contra hcontra
        simp at hcontra
        exact hdisj a (idxProbe_subset rest v a hcontra) ha
      rw [h1, ih (List.Nodup.of_append_right hnd)]

/-- Helper: the source classifier `TrivialIdxExpr.tryFrom` recognizes
exactly the root shapes the spec describes, with the same operator and
value. -/
theorem tryFrom_map_eq_trivialProbeSpec (c : String) (e : Expr) :
    (TrivialIdxExpr.tryFrom c e).map (fun t => (t.op, t.val)) = trivialProbeSpec c e := by
  match e with
  | .Identifier _ => rfl
  | .Value _ => rfl
  | .BinaryExpr l op r =>
    cases op <;> cases l <;> cases r <;>
      simp [TrivialIdxExpr.tryFrom, trivialProbeSpec, IndexBinOp.tryFrom] <;>
      split_ifs <;> simp

/-- Claim C5.  The planner classifies exactly as the spec says: the
source classifier recognizes precisely the four root shapes `c = v`,
`v = c`, `c ≠ v`, `v ≠ c` (first conjunct, against the spec-side
`trivialProbeSpec`); an absent predicate yields all indexed offsets with
no residual; an equality probe yields exactly `idx.probe(v)` with no
residual; an inequality probe yields all indexed offsets minus
`idx.probe(v)` with no residual (when no offset is indexed twice); every
other shape yields all indexed offsets and carries the whole predicate. -/
theorem probe_planner_classification (c : String) (m : Idx) (e : Expr) (v : BongoLiteral)
    (hnd : (idx_to_indices m).Nodup) :
    ((TrivialIdxExpr.tryFrom c e).map (fun t => (t.op, t.val)) = trivialProbeSpec c e) ∧
    (DiscIndexer.from_opt_expr (c, m) none = ⟨idx_to_indices m, none⟩) ∧
    (trivialProbeSpec c e = some (.Eq, v) →
      DiscIndexer.from_opt_expr (c, m) (some e) = ⟨idxProbe m v, none⟩) ∧
    (trivialProbeSpec c e = some (.NotEq, v) →
      DiscIndexer.from_opt_expr (c, m) (some e) =
        ⟨(idx_to_indices m).filter (fun o => !((idxProbe m v).contains o)), none⟩) ∧
    (trivialProbeSpec c e = none →
      DiscIndexer.from_opt_expr (c, m) (some e) = ⟨idx_to_indices m, some e⟩) := by
  refine ⟨tryFrom_map_eq_trivialProbeSpec c e, rfl, ?_, ?_, ?_⟩
  · intro hspec
    have hmap := tryFrom_map_eq_trivialProbeSpec c e
    rw [hspec] at hmap
    obtain ⟨t, ht, hval⟩ := Option.map_eq_some'.mp hmap
    obtain ⟨hop, hv⟩ := Prod.mk.injEq _ _ _ _ ▸ hval
    simp only [DiscIndexer.from_opt_expr, ht, hop, hv]
    unfold idxProbe
    cases hlk : m.lookup v
    · simp [hlk]
    · simp [hlk]
  · intro hspec
    have hmap := tryFrom_map_eq_trivialProbeSpec c e
    rw [hspec] at hmap
    obtain ⟨t, ht, hval⟩ := Option.map_eq_some'.mp hmap
    obtain ⟨hop, hv⟩ := Prod.mk.injEq _ _ _ _ ▸ hval
    simp only [DiscIndexer.from_opt_expr, ht, hop, hv]
    rw [idx_to_indices_removeEntry m v hnd]
  · intro hspec
    have hmap := tryFrom_map_eq_trivialProbeSpec c e
    rw [hspec] at hmap
    have ht : TrivialIdxExpr.tryFrom c e = none := Option.map_eq_none'.mp hmap
    simp only [DiscIndexer.from_opt_expr, ht]

/-- Witness for `probe_planner_classification`: on the index
`{Int 1 ↦ [0, 11]}` the equality probe `a = 1` returns exactly the
probed offsets with no residual predicate. -/
theorem probe_planner_classification_witness :
    DiscIndexer.from_opt_expr ("a", [(BongoLiteral.Int 1, [0, 11])])
      (some (.BinaryExpr (.Identifier "a") .Eq (.Value (.Int 1)))) =
      ⟨idxProbe [(BongoLiteral.Int 1, [0, 11])] (.Int 1), none⟩ :=
  (probe_planner_classification "a" [(BongoLiteral.Int 1, [0, 11])]
    (.BinaryExpr (.Identifier "a") .Eq (.Value (.Int 1))) (.Int 1)
    (by decide)).2.2.1 (by decide)

/-- Helper: length of the row file after an overwrite at an offset. -/
theorem writeAt_length (disc : List Nat) (off : Nat) (bytes : List Nat) :
    (writeAt disc off bytes).length = max disc.length (off + bytes.length) := by
  simp [writeAt]
  omega

/-- Helper: lifting a successful result is the identity. -/
theorem liftB_ok {β : Type} (b : β) : liftB (.ok b) = (.ok b : Except ExecErr β) := rfl

/-- Helper: bind on a successful `Except` applies the continuation. -/
theorem except_ok_bind {ε α β : Type} (a : α) (f : α → Except ε β) :
    (Except.ok a >>= f : Except ε β) = f a := rfl

/-- Claim C8.  One iteration of the insert write loop on a non-empty row:
when the ghost list is non-empty the row is written at its most recently
added offset `g` (LIFO, taken from the end), the remaining ghosts are
kept, the offset is inserted into the index under the row's first cell,
and (when the slot lies inside the file) the file length is unchanged;
only when the ghost list is empty is the row appended at the end of the
file, growing it by the row's size. -/
theorem insert_reuses_ghosts_lifo (t : TableState) (k : BongoLiteral) (rest : Row)
    (bs : List Nat)
    (henc : Row.as_disc_bytes (k :: rest) (get_d_types t.meta.cols) pad0 = .ok bs) :
    (∀ gs g, t.meta.ghosts = gs ++ [g] →
      Executor.insertRowStep t (k :: rest) = .ok
        (TableState.mk
          (TableMetaData.mk t.meta.cols (t.meta.idx.1, idxInsert t.meta.idx.2 k g)
            gs t.meta.row_size t.meta.row_count)
          (writeAt t.disc g bs), g) ∧
      (g + bs.length ≤ t.disc.length → (writeAt t.disc g bs).length = t.disc.length)) ∧
    (t.meta.ghosts = [] →
      Executor.insertRowStep t (k :: rest) = .ok
        (TableState.mk
          (TableMetaData.mk t.meta.cols (t.meta.idx.1, idxInsert t.meta.idx.2 k t.disc.length)
            t.meta.ghosts t.meta.row_size t.meta.row_count)
          (writeAt t.disc t.disc.length bs), t.disc.length) ∧
      (writeAt t.disc t.disc.length bs).length = t.disc.length + bs.length) := by
  constructor
  · intro gs g hg
    constructor
    · have hpop : vecPop t.meta.ghosts = some (g, gs) := by
        rw [hg]
        simp [vecPop]
      simp [Executor.insertRowStep, hpop, henc, liftB_ok, except_ok_bind]
    · intro hle
      rw [writeAt_length]
      omega
  · intro hg
    constructor
    · have hpop : vecPop t.meta.ghosts = none := by
        rw [hg]
        rfl
      rw [hg]
      simp [Executor.insertRowStep, vecPop, henc, liftB_ok, except_ok_bind, hg]
    · rw [writeAt_length]
      omega

/-- Witness for `insert_reuses_ghosts_lifo`: a ghost slot at offset 0 of
a 22-byte file of the example table is reused by the next insert. -/
theorem insert_reuses_ghosts_lifo_witness :
    Executor.insertRowStep
      (TableState.mk (TableMetaData.mk exampleCols ("a", []) [0] 11 1)
        (List.replicate 22 0))
      [BongoLiteral.Int 1, .Bool false] = .ok
      (TableState.mk
        (TableMetaData.mk exampleCols
          ("a", idxInsert [] (.Int 1) 0) [] 11 1)
        (writeAt (List.replicate 22 0) 0 [1, 0, 0, 0, 0, 0, 0, 0, 1, 1, 0]), 0) :=
  ((insert_reuses_ghosts_lifo
      (TableState.mk (TableMetaData.mk exampleCols ("a", []) [0] 11 1)
        (List.replicate 22 0))
      (.Int 1) [.Bool false] [1, 0, 0, 0, 0, 0, 0, 0, 1, 1, 0]
      (by decide)).1 [] 0 rfl).1

/-- Helper: membership in the resolved index list of an all-names
projection, relative to the accumulator. -/
theorem resolveAux_mem (cols : List ColumnDef) (items : List SelectItem)
    (acc sel : List Nat)
    (hall : ∀ it ∈ items, ∃ n, it = SelectItem.ColumnName n)
    (hres : resolveSelectItemsAux cols acc items = .ok sel) (i : Nat) :
    (i ∈ sel ↔ i ∈ acc ∨ ∃ n, SelectItem.ColumnName n ∈ items ∧
      cols.findIdx? (fun c => c.name == n) = some i) := by
  induction items generalizing acc with
  | nil =>
    have hacc : acc = sel := by
      simpa [resolveSelectItemsAux] using hres
    subst hacc
    simp
  | cons it rest ih =>
    obtain ⟨n, rfl⟩ := hall it (List.mem_cons_self it rest)
    have hall' : ∀ x ∈ rest, ∃ m, x = SelectItem.ColumnName m := by
      intro x hx
      exact hall x (List.mem_cons_of_mem _ hx)
    cases hidx : cols.findIdx? (fun c => c.name == n) with
    | none =>
      rw [resolveSelectItemsAux, hidx] at hres
      cases hres
    | some loc =>
      rw [resolveSelectItemsAux, hidx] at hres
      rw [ih (acc ++ [loc]) hall' hres]
      constructor
      · rintro (hmem | ⟨m, hm, hfind⟩)
        · rcases List.mem_append.mp hmem with h | h
          · exact Or.inl h
          · have : i = loc := by simpa using h
            subst this
            exact Or.inr ⟨n, List.mem_cons_self _ _, hidx⟩
        · exact Or.inr ⟨m, List.mem_cons_of_mem _ hm, hfind⟩
      · rintro (hmem | ⟨m, hm, hfind⟩)
        · exact Or.inl (List.mem_append.mpr (Or.inl hmem))
        · rcases List.mem_cons.mp hm with heq | hmrest
          · have hmn : m = n := by
              cases heq
              rfl
            subst hmn
            rw [hidx] at hfind
            have : loc = i := by simpa using hfind
            subst this
            exact Or.inl (List.mem_append.mpr (Or.inr (by simp)))
          · exact Or.inr ⟨m, hmrest, hfind⟩

/-- Helper: the projection depends only on which indices are selected,
not on their order or multiplicity. -/
theorem projectRow_congr (sel1 sel2 : List Nat) (row : Row)
    (h : ∀ i, i ∈ sel1 ↔ i ∈ sel2) : projectRow sel1 row = projectRow sel2 row := by
  unfold projectRow
  congr 1
  apply List.filter_congr
  intro p _
  have hiff := h p.1
  by_cases hp : p.1 ∈ sel1
  · have h2 := hiff.mp hp
    simp [hp, h2]
  · have h2 : p.1 ∉ sel2 := fun hc => hp (hiff.mpr hc)
    simp [hp, h2]

/-- Helper: the projection of a row is a sublist of the row, so the kept
cells appear in the table's column order. -/
theorem projectRow_sublist (sel : List Nat) (row : Row) :
    (projectRow sel row).Sublist row := by
  unfold projectRow
  suffices h : ∀ (n : Nat) (l : Row),
      (((List.enumFrom n l).filter (fun p => sel.contains p.1)).map (fun p => p.2)).Sublist l by
    simpa [List.enum] using h 0 row
  intro n l
  induction l generalizing n with
  | nil => simp
  | cons a l ih =>
    rw [List.enumFrom_cons, List.filter_cons]
    by_cases hc : sel.contains (n, a).1
    · simp only [hc, if_pos]
      rw [List.map_cons]
      exact List.Sublist.cons₂ a (ih (n + 1))
    · simp only [hc]
      exact List.Sublist.cons a (ih (n + 1))

/-- Claim C10.  For explicit-name projections: the projected cells of a
row form a sublist of the row (they appear in the table's
column-definition order), and two projections selecting the same set of
column names — in any order, with any multiplicity — produce the same
cells (duplicates collapse). -/
theorem projection_table_order_dedup
    (cols : List ColumnDef) (items1 items2 : List SelectItem)
    (sel1 sel2 : List Nat) (row : Row)
    (h1 : resolveSelectItems cols items1 = .ok sel1)
    (h2 : resolveSelectItems cols items2 = .ok sel2)
    (hn1 : ∀ it ∈ items1, ∃ n, it = SelectItem.ColumnName n)
    (hn2 : ∀ it ∈ items2, ∃ n, it = SelectItem.ColumnName n)
    (hsame : ∀ n, SelectItem.ColumnName n ∈ items1 ↔ SelectItem.ColumnName n ∈ items2) :
    projectRow sel1 row = projectRow sel2 row ∧ (projectRow sel1 row).Sublist row := by
  refine ⟨?_, projectRow_sublist sel1 row⟩
  unfold resolveSelectItems at h1 h2
  apply projectRow_congr
  intro i
  rw [resolveAux_mem cols items1 [] sel1 hn1 h1 i,
      resolveAux_mem cols items2 [] sel2 hn2 h2 i]
  simp only [List.not_mem_nil, false_or]
  constructor
  · rintro ⟨n, hmem, hidx⟩
    exact ⟨n, (hsame n).mp hmem, hidx⟩
  · rintro ⟨n, hmem, hidx⟩
    exact ⟨n, (hsame n).mpr hmem, hidx⟩

/-- Witness for `projection_table_order_dedup`: on a three-column table,
`SELECT col_3, col_1` and `SELECT col_1, col_3` both return the row's
first and third cells, in column-definition order. -/
theorem projection_table_order_dedup_witness :
    projectRow [2, 0] [BongoLiteral.Int 1, .Bool true, .Null] =
      projectRow [0, 2] [BongoLiteral.Int 1, .Bool true, .Null] ∧
    (projectRow [2, 0] [BongoLiteral.Int 1, .Bool true, .Null]).Sublist
      [BongoLiteral.Int 1, .Bool true, .Null] :=
  projection_table_order_dedup
    [ColumnDef.mk "col_1" .Int, ColumnDef.mk "col_2" .Bool, ColumnDef.mk "col_3" .Bool]
    [.ColumnName "col_3", .ColumnName "col_1"]
    [.ColumnName "col_1", .ColumnName "col_3"]
    [2, 0] [0, 2] [BongoLiteral.Int 1, .Bool true, .Null]
    (by decide) (by decide)
    (by
      intro it hit
      rcases List.mem_cons.mp hit with rfl | hit2
      · exact ⟨"col_3", rfl⟩
      · rcases List.mem_cons.mp hit2 with rfl | hit3
        · exact ⟨"col_1", rfl⟩
        · cases hit3)
    (by
      intro it hit
      rcases List.mem_cons.mp hit with rfl | hit2
      · exact ⟨"col_1", rfl⟩
      · rcases List.mem_cons.mp hit2 with rfl | hit3
        · exact ⟨"col_3", rfl⟩
        · cases hit3)
    (by
      intro n
      constructor
      · intro h
        rcases List.mem_cons.mp h with heq | h2
        · rw [heq]
          simp
        · rcases List.mem_cons.mp h2 with heq | h3
          · rw [heq]
            simp
          · cases h3
      · intro h
        rcases List.mem_cons.mp h with heq | h2
        · rw [heq]
          simp
        · rcases List.mem_cons.mp h2 with heq | h3
          · rw [heq]
            simp
          · cases h3)

/-- Helper: a big-endian decomposition has exactly the requested width. -/
theorem natToBEBytes_length (w v : Nat) : (natToBEBytes w v).length = w := by
  induction w generalizing v with
  | zero => rfl
  | succ w ih => simp [natToBEBytes, ih]

/-- Helper: recomposition after appending a final (least significant)
byte. -/
theorem natFromBEBytes_append_last (xs : List Nat) (b : Nat) :
    natFromBEBytes (xs ++ [b]) = natFromBEBytes xs * 256 + b := by
  unfold natFromBEBytes
  rw [List.foldl_append]
  rfl

/-- Helper: big-endian round trip below the width bound. -/
theorem natFromBE_natToBE (w v : Nat) (h : v < 256 ^ w) :
    natFromBEBytes (natToBEBytes w v) = v := by
  induction w generalizing v with
  | zero =>
    simp [natToBEBytes, natFromBEBytes]
    simp [Nat.pow_zero] at h
    omega
  | succ w ih =>
    rw [natToBEBytes, natFromBEBytes_append_last]
    have hdiv : v / 256 < 256 ^ w := by
      rw [Nat.div_lt_iff_lt_mul (by norm_num)]
      calc v < 256 ^ (w + 1) := h
        _ = 256 ^ w * 256 := by rw [Nat.pow_succ]
    rw [ih _ hdiv]
    have hdm := Nat.div_add_mod v 256
    omega

/-- Helper: the two-complement pattern fits 64 bits. -/
theorem i64ToPattern_lt (n : Int) : i64ToPattern n < 2 ^ 64 := by
  unfold i64ToPattern
  have hp : (2 : Int) ^ 64 = 18446744073709551616 := by norm_num
  have hq : (2 : Nat) ^ 64 = 18446744073709551616 := by norm_num
  rw [hp, hq]
  omega

/-- Helper: reinterpreting the pattern of an in-range `i64` recovers the
value. -/
theorem patternToI64_i64ToPattern (n : Int) (h1 : -(2 ^ 63) ≤ n) (h2 : n < 2 ^ 63) :
    patternToI64 (i64ToPattern n) = n := by
  unfold patternToI64 i64ToPattern
  have hp64 : (2 : Int) ^ 64 = 18446744073709551616 := by norm_num
  have hp63 : (2 : Int) ^ 63 = 9223372036854775808 := by norm_num
  have hp63n : (2 : Nat) ^ 63 = 9223372036854775808 := by norm_num
  rw [hp63] at h1 h2
  rw [hp64, hp63n]
  split <;> omega

/-- Helper: a byte the lead-byte classifier accepts is at most 0xF4. -/
theorem utf8Need_byte_le (b : Nat) (h : utf8Need b ≠ 9) : b ≤ 0xF4 := by
  unfold utf8Need at h
  split_ifs at h <;> simp_all <;> omega

/-- Helper: a first continuation byte is at most 0xF4. -/
theorem utf8Cont1Ok_le (b c1 : Nat) (h : utf8Cont1Ok b c1 = true) : c1 ≤ 0xF4 := by
  unfold utf8Cont1Ok isUtf8Cont at h
  split_ifs at h <;> simp_all <;> omega

/-- Helper: a continuation byte is at most 0xF4. -/
theorem isUtf8Cont_le (c : Nat) (h : isUtf8Cont c = true) : c ≤ 0xF4 := by
  unfold isUtf8Cont at h
  simp at h
  omega

/-- Helper: byte bound for valid UTF-8 sequences, by strong induction on
the length. -/
theorem validUtf8_byte_le_aux : ∀ (n : Nat) (l : List Nat), l.length ≤ n →
    validUtf8 l = true → ∀ b ∈ l, b ≤ 0xF4 := by
  intro n
  induction n with
  | zero =>
    intro l hl h b hb
    cases l with
    | nil => cases hb
    | cons x xs => simp at hl
  | succ n ih =>
    intro l hl h b hb
    cases l with
    | nil => cases hb
    | cons x xs =>
      rw [validUtf8.eq_def] at h
      simp only [List.length_cons, Nat.add_le_add_iff_right] at hl
      split at h
      · rename_i heq
        cases heq
      · rename_i y ys heq
        obtain ⟨hx, hxs⟩ := (List.cons.injEq x xs y ys).mp heq
        rw [← hx, ← hxs] at h
        split at h
        · rename_i hneed
          simp only [List.mem_cons] at hb
          rcases hb with hb1 | hbx
          · have hble := utf8Need_byte_le x (by omega)
            omega
          · exact ih _ hl h b hbx
        · rename_i c1 r hneed
          simp only [Bool.and_eq_true] at h
          obtain ⟨hc1, hr⟩ := h
          simp only [List.mem_cons] at hb
          rcases hb with hb1 | hb2 | hbx
          · have hble := utf8Need_byte_le x (by omega)
            omega
          · have hble := utf8Cont1Ok_le x c1 hc1
            omega
          · exact ih r (by simp at hl; omega) hr b hbx
        · rename_i c1 c2 r hneed
          simp only [Bool.and_eq_true] at h
          obtain ⟨⟨hc1, hc2⟩, hr⟩ := h
          simp only [List.mem_cons] at hb
          rcases hb with hb1 | hb2 | hb3 | hbx
          · have hble := utf8Need_byte_le x (by omega)
            omega
          · have hble := utf8Cont1Ok_le x c1 hc1
            omega
          · have hble := isUtf8Cont_le c2 hc2
            omega
          · exact ih r (by simp at hl; omega) hr b hbx
        · rename_i c1 c2 c3 r hneed
          simp only [Bool.and_eq_true] at h
          obtain ⟨⟨⟨hc1, hc2⟩, hc3⟩, hr⟩ := h
          simp only [List.mem_cons] at hb
          rcases hb with hb1 | hb2 | hb3 | hb4 | hbx
          · have hble := utf8Need_byte_le x (by omega)
            omega
          · have hble := utf8Cont1Ok_le x c1 hc1
            omega
          · have hble := isUtf8Cont_le c2 hc2
            omega
          · have hble := isUtf8Cont_le c3 hc3
            omega
          · exact ih r (by simp at hl; omega) hr b hbx
        · cases h

/-- Helper: every byte of a valid UTF-8 sequence is at most 0xF4; in
particular no byte equals the 0xFF varchar terminator. -/
theorem validUtf8_byte_le (l : List Nat) (h : validUtf8 l = true) :
    ∀ b ∈ l, b ≤ 0xF4 :=
  validUtf8_byte_le_aux l.length l (Nat.le_refl _) h

/-- Helper: the first 0xFF of the encoded varchar payload is the
terminator after the content. -/
theorem findIdx?_terminator (s rest : List Nat) (hs : ∀ b ∈ s, b ≠ 0xFF) :
    (s ++ 0xFF :: rest).findIdx? (fun b => b = 0xFF) = some s.length := by
  induction s with
  | nil => simp [List.findIdx?_cons]
  | cons a s ih =>
    rw [List.cons_append, List.findIdx?_cons]
    have ha : a ≠ 0xFF := hs a (List.mem_cons_self a s)
    rw [if_neg (by simp [ha])]
    rw [List.findIdx?_succ, ih (fun b hb => hs b (List.mem_cons_of_mem a hb))]
    rfl

/-- Helper: every cell size is at least two bytes. -/
theorem disc_size_ge_two (t : BongoDataType) : 2 ≤ t.disc_size := by
  cases t <;> simp [BongoDataType.disc_size] <;> omega

/-- Helper: round trip of one cell through its on-disk encoding, with
the encoded length and the presence-byte characterization. -/
theorem cell_round_trip (pad : Nat → Nat) (lit : BongoLiteral) (t : BongoDataType)
    (hst : t.can_store lit = true) (hinv : LitInv lit) :
    ∃ bs, lit.as_disc_bytes t pad = .ok bs ∧ bs.length = t.disc_size ∧
      BongoLiteral.from_disc_bytes bs t = .ok lit ∧
      (bs.headD 0 = 0 ↔ lit = .Null) := by
  cases lit with
  | Null =>
    refine ⟨0 :: (List.range (t.disc_size - 1)).map pad, ?_, ?_, ?_, ?_⟩
    · simp [BongoLiteral.as_disc_bytes, hst]
    · have := disc_size_ge_two t
      simp
      omega
    · have hlen : (0 :: (List.range (t.disc_size - 1)).map pad).length = t.disc_size := by
        have := disc_size_ge_two t
        simp
        omega
      rw [BongoLiteral.from_disc_bytes, if_neg (by rw [hlen]; simp)]
      rfl
    · simp
  | Int val =>
    cases t with
    | Int =>
      obtain ⟨h1, h2⟩ := hinv
      refine ⟨1 :: natToBEBytes 8 (i64ToPattern val), ?_, ?_, ?_, ?_⟩
      · rfl
      · simp [natToBEBytes_length, BongoDataType.disc_size]
      · rw [BongoLiteral.from_disc_bytes]
        rw [if_neg (by simp [natToBEBytes_length, BongoDataType.disc_size])]
        rw [if_neg (by simp)]
        simp only [List.tail_cons]
        rw [natFromBE_natToBE 8 _ (by simpa using i64ToPattern_lt val)]
        rw [patternToI64_i64ToPattern val h1 h2]
      · simp
    | Bool => simp [BongoDataType.can_store] at hst
    | Varchar cap => simp [BongoDataType.can_store] at hst
  | Bool b =>
    cases t with
    | Bool =>
      refine ⟨[1, if b then 1 else 0], ?_, ?_, ?_, ?_⟩
      · rfl
      · simp [BongoDataType.disc_size]
      · cases b <;> rfl
      · simp
    | Int => simp [BongoDataType.can_store] at hst
    | Varchar cap => simp [BongoDataType.can_store] at hst
  | Varchar s =>
    cases t with
    | Varchar cap =>
      have hcap : s.length ≤ cap := by
        simpa [BongoDataType.can_store] using hst
      have hvalid : validUtf8 s = true := hinv
      have hnff : ∀ b ∈ s, b ≠ 0xFF := by
        intro b hb
        have := validUtf8_byte_le s hvalid b hb
        omega
      refine ⟨1 :: (s ++ [0xFF] ++ (List.range (BongoDataType.disc_size (.Varchar cap) - (s.length + 2))).map pad), ?_, ?_, ?_, ?_⟩
      · simp [BongoLiteral.as_disc_bytes, hst]
      · simp [BongoDataType.disc_size]
        omega
      · have hlen : (1 :: (s ++ [0xFF] ++ (List.range (BongoDataType.disc_size (.Varchar cap) - (s.length + 2))).map pad)).length = BongoDataType.disc_size (.Varchar cap) := by
          simp [BongoDataType.disc_size]
          omega
        rw [BongoLiteral.from_disc_bytes, if_neg (by rw [hlen]; simp), if_neg (by simp)]
        simp only [List.tail_cons]
        have hre : s ++ [0xFF] ++ (List.range (BongoDataType.disc_size (.Varchar cap) - (s.length + 2))).map pad =
            s ++ 0xFF :: (List.range (BongoDataType.disc_size (.Varchar cap) - (s.length + 2))).map pad := by
          simp
        rw [hre, findIdx?_terminator _ _ hnff]
        simp only [List.take_left, hvalid, if_pos]
      · simp
    | Int => simp [BongoDataType.can_store] at hst
    | Bool => simp [BongoDataType.can_store] at hst

/-- Helper: round trip of a whole row, decoding inside any larger buffer
at the offset where the encoding was placed. -/
theorem row_round_trip_aux (pad : Nat → Nat) :
    ∀ (r : Row) (ds : List BongoDataType), r.length = ds.length →
    (∀ p ∈ r.zip ds, p.2.can_store p.1 = true ∧ LitInv p.1) →
    ∃ rbs, Row.as_disc_bytes r ds pad = .ok rbs ∧
      ∀ pre : List Nat, Row.from_disc_bytes_aux (pre ++ rbs) pre.length ds = .ok r := by
  intro r
  induction r with
  | nil =>
    intro ds hlen hcells
    cases ds with
    | cons d ds => simp at hlen
    | nil =>
      refine ⟨[], rfl, ?_⟩
      intro pre
      rfl
  | cons l r ih =>
    intro ds hlen hcells
    cases ds with
    | nil => simp at hlen
    | cons d ds =>
      have hcell := hcells (l, d) (by simp)
      obtain ⟨bs, hbs, hbslen, hdec, _⟩ := cell_round_trip pad l d hcell.1 hcell.2
      have hlen2 : r.length = ds.length := by simpa using hlen
      obtain ⟨rbs, hrbs, hrec⟩ := ih ds hlen2 (fun p hp => hcells p (by simp [hp]))
      have hfold : (r.zip ds).foldr
          (fun (cell : BongoLiteral × BongoDataType) acc => do
            let bs ← cell.1.as_disc_bytes cell.2 pad
            let rest ← acc
            return bs ++ rest)
          (.ok []) = .ok rbs := by
        rw [Row.as_disc_bytes, if_neg (by simp [hlen2])] at hrbs
        exact hrbs
      refine ⟨bs ++ rbs, ?_, ?_⟩
      · rw [Row.as_disc_bytes, if_neg (by simp [hlen])]
        rw [List.zip_cons_cons, List.foldr_cons, hfold, hbs]
        rfl
      · intro pre
        have hread : readBytesAt (pre ++ (bs ++ rbs)) pre.length d.disc_size = .ok bs := by
          unfold readBytesAt
          rw [if_pos (by simp [List.length_append]; omega)]
          rw [List.drop_left, ← hbslen, List.take_left]
        have hassoc : pre ++ (bs ++ rbs) = (pre ++ bs) ++ rbs :=
          (List.append_assoc pre bs rbs).symm
        have hoff : pre.length + d.disc_size = (pre ++ bs).length := by
          simp [hbslen]
        rw [Row.from_disc_bytes_aux, hread]
        simp only [except_ok_bind]
        rw [hdec]
        simp only [except_ok_bind]
        rw [hassoc, hoff, hrec (pre ++ bs)]
        rfl

/-- Claim C3.  For a literal storable in its column type (with the Rust
type invariants: in-range `i64`, valid-UTF-8 string) the cell codec round
trips and the leading presence byte is zero exactly for `Null`; for a row
of such literals against its schema, the row codec round trips. -/
theorem row_codec_round_trip (pad : Nat → Nat) (lit : BongoLiteral) (t : BongoDataType)
    (hst : t.can_store lit = true) (hinv : LitInv lit)
    (r : Row) (s : List ColumnDef)
    (hrlen : r.length = s.length)
    (hr : ∀ p ∈ r.zip (get_d_types s), p.2.can_store p.1 = true ∧ LitInv p.1) :
    (∃ bs, lit.as_disc_bytes t pad = .ok bs ∧
        BongoLiteral.from_disc_bytes bs t = .ok lit ∧
        (bs.headD 0 = 0 ↔ lit = .Null)) ∧
    (∃ rbs, Row.as_disc_bytes r (get_d_types s) pad = .ok rbs ∧
        Row.from_disc_bytes rbs (get_d_types s) = .ok r) := by
  constructor
  · obtain ⟨bs, h1, _, h3, h4⟩ := cell_round_trip pad lit t hst hinv
    exact ⟨bs, h1, h3, h4⟩
  · obtain ⟨rbs, h1, h2⟩ :=
      row_round_trip_aux pad r (get_d_types s) (by simp [get_d_types, hrlen]) hr
    refine ⟨rbs, h1, ?_⟩
    have h0 := h2 []
    simpa [Row.from_disc_bytes] using h0

/-- Witness for `row_codec_round_trip` on a varchar cell and a two-cell
row of the example table. -/
theorem row_codec_round_trip_witness :
    (∃ bs, (BongoLiteral.Varchar [104]).as_disc_bytes (.Varchar 2) pad0 = .ok bs ∧
        BongoLiteral.from_disc_bytes bs (.Varchar 2) = .ok (.Varchar [104]) ∧
        (bs.headD 0 = 0 ↔ BongoLiteral.Varchar [104] = .Null)) ∧
    (∃ rbs, Row.as_disc_bytes [BongoLiteral.Int 5, .Bool true] (get_d_types exampleCols) pad0 = .ok rbs ∧
        Row.from_disc_bytes rbs (get_d_types exampleCols) = .ok [BongoLiteral.Int 5, .Bool true]) :=
  row_codec_round_trip pad0 (.Varchar [104]) (.Varchar 2) (by decide) (by decide)
    [BongoLiteral.Int 5, .Bool true] exampleCols (by decide) (by decide)
